/-
Verification of the anchor-selection core of `enfin.py` (the `RI_SDN`
control-plane computation): adjacency-matrix construction, most-connected
candidate selection, and the staged anchor-resolution policy.

The embedding follows the Python source closely:
  * `adjacency_matrix` embeds the closure `adjacency_matrix()` (lines 112-120):
    an N x N 0/1 matrix with entry (i, j) = 1 iff `nodes[j]` is in
    `nodes[i].connectionsTo(nodes)`; the probe is an explicit parameter.
  * `most_connected_nodes` embeds lines 122-127: row sums, `np.max`, and
    `np.where` (which yields the matching indices in ascending order).
    `np.max` of an empty array raises, modelled by `Option` (`none` = raised).
  * `determine_anchor` embeds lines 129-149.  A raised Python exception
    (IndexError on out-of-range indexing, ValueError from `np.min`/`np.max`
    on an empty array) is modelled by `none`; a returned node by `some`.
Machine integers do not overflow here: all quantities are small natural
numbers (matrix entries are 0/1, sums are bounded by N), so `Nat` is exact.
-/
import Mathlib

set_option autoImplicit false

namespace Enfin

variable {α : Type} [DecidableEq α]

/-- Entry access `adj_matrix[i, j]` on a list-of-rows matrix; `none` models
the IndexError numpy raises on an out-of-range index. -/
def matEntry (m : List (List Nat)) (i j : Nat) : Option Nat :=
  (m.get? i).bind (fun row => row.get? j)

/-- `adjacency_matrix` (enfin.py lines 112-120): for every ordered pair of
positions (i, j) over `nodes`, the entry is 1 if `nodes[j]` is a member of the
connection set returned by the probe for `nodes[i]`, else 0 (the `np.zeros`
initialisation). -/
def adjacency_matrix (nodes : List α) (connectionsTo : α → List α) :
    List (List Nat) :=
  nodes.map (fun node =>
    nodes.map (fun neighbor => if neighbor ∈ connectionsTo node then 1 else 0))

/-- `connections = adj_matrix.sum(axis=1)` (line 124): the row-sum degree
vector. -/
def connectionsOf (m : List (List Nat)) : List Nat :=
  m.map List.sum

/-- `most_connected_nodes` (lines 122-127): indices attaining the maximum row
sum, in ascending order (`np.where`).  `none` models the ValueError raised by
`np.max` on an empty degree vector. -/
def most_connected_nodes (m : List (List Nat)) : Option (List Nat) :=
  match (connectionsOf m).max? with
  | none => none
  | some mx =>
      some ((List.range m.length).filter
        (fun i => (connectionsOf m).getD i 0 = mx))

/-- `distances = np.sum(adj_matrix, axis=1)` (line 139): the row-sum vector
recomputed in the fallback stage of `determine_anchor`. -/
def distancesOf (m : List (List Nat)) : List Nat :=
  m.map List.sum

/-- `sdc = np.where(distances == min_distance)[0]` (line 141): node indices
whose distance equals `mind`, ascending. -/
def sdcOf (m : List (List Nat)) (mind : Nat) : List Nat :=
  (List.range m.length).filter (fun k => (distancesOf m).getD k 0 = mind)

/-- Inner loop of the pair scan (line 135-137): `for j in smc: if i != j and
adj_matrix[i, j] == 0: return nodes[i]`.  Result `some (some i)` means the
loop returned at outer index `i`; `some none` means it fell through; `none`
models an IndexError while reading `adj_matrix[i, j]`.  The `i != j` test
short-circuits, so no entry is read when `i = j`. -/
def innerScan (m : List (List Nat)) (i : Nat) : List Nat → Option (Option Nat)
  | [] => some none
  | j :: js =>
      if i = j then innerScan m i js
      else
        match matEntry m i j with
        | none => none
        | some v => if v = 0 then some (some i) else innerScan m i js

/-- Outer loop of the pair scan (lines 134-137): `for i in smc`. -/
def outerScan (m : List (List Nat)) (smc : List Nat) :
    List Nat → Option (Option Nat)
  | [] => some none
  | i :: rest =>
      match innerScan m i smc with
      | none => none
      | some (some k) => some (some k)
      | some none => outerScan m smc rest

/-- `determine_anchor` (lines 129-149), with the enclosing `nodes` list made
an explicit parameter.  Faithfully kept from the source: the final stage
computes `anchor_candidates = np.where(smc_connections == max)[0]`, which are
positions WITHIN `sdc`, and returns `nodes[anchor_candidates[0]]` — it does
not map the position back through `sdc`. -/
def determine_anchor (nodes : List α) (smc : List Nat)
    (m : List (List Nat)) : Option α :=
  if smc.length = 1 then
    smc.head?.bind nodes.get?
  else
    match outerScan m smc smc with
    | none => none
    | some (some i) => nodes.get? i
    | some none =>
        match (distancesOf m).min? with
        | none => none
        | some mind =>
            let sdc := sdcOf m mind
            if sdc.length = 1 then sdc.head?.bind nodes.get?
            else
              let smc_connections := sdc.map (fun k => (m.getD k []).sum)
              match smc_connections.max? with
              | none => none
              | some mx =>
                  let anchor_candidates :=
                    (List.range sdc.length).filter
                      (fun p => smc_connections.getD p 0 = mx)
                  anchor_candidates.head?.bind nodes.get?

/-- The anchor stage of `RI_SDN` (lines 156-158): build the matrix, select
the most-connected set, resolve the anchor. -/
def RI_SDN_anchor (nodes : List α) (connectionsTo : α → List α) : Option α :=
  let m := adjacency_matrix nodes connectionsTo
  match most_connected_nodes m with
  | none => none
  | some smc => determine_anchor nodes smc m

/-- An index of `smc` that has a disconnected partner inside `smc`:
the condition on which the pair scan returns. -/
def hasDisconnection (m : List (List Nat)) (smc : List Nat) (i : Nat) : Prop :=
  ∃ j ∈ smc, i ≠ j ∧ matEntry m i j = some 0

instance (m : List (List Nat)) (smc : List Nat) (i : Nat) :
    Decidable (hasDisconnection m smc i) := by
  unfold hasDisconnection; infer_instance

/-- Path graph 0-1-2-3 probe, used for a concrete snapshot. -/
def pathConn : Nat → List Nat
  | 0 => [1]
  | 1 => [0, 2]
  | 2 => [1, 3]
  | 3 => [2]
  | _ => []

/-- Star graph probe on nodes 0-3 with edges {0-1, 0-2, 0-3}
(scenario A of the spec). -/
def starConn : Nat → List Nat
  | 0 => [1, 2, 3]
  | 1 => [0]
  | 2 => [0]
  | 3 => [0]
  | _ => []

/-- Adjacency matrix of the 5-node graph with edges
{0-1, 0-2, 0-3, 1-2, 1-4}: degrees [3,3,2,1,1]. -/
def M5 : List (List Nat) :=
  [[0,1,1,1,0],
   [1,0,1,0,1],
   [1,1,0,0,0],
   [1,0,0,0,0],
   [0,1,0,0,0]]

/-- Adjacency matrix of 4 nodes with edges {0-1, 2-3}
(two disjoint pairs, scenario B of the spec). -/
def MB : List (List Nat) :=
  [[0,1,0,0],
   [1,0,0,0],
   [0,0,0,1],
   [0,0,1,0]]

/- ### Helper lemmas -/

theorem nat_max_of_eq_some {l : List Nat} {mx : Nat} (h : l.max? = some mx) :
    mx ∈ l ∧ ∀ x ∈ l, x ≤ mx := by
  refine ⟨List.max?_mem (fun a b => max_choice a b) h, ?_⟩
  exact ((List.max?_le_iff (fun a b c => max_le_iff) h).mp le_rfl)

theorem nat_min_of_eq_some {l : List Nat} {mn : Nat} (h : l.min? = some mn) :
    mn ∈ l ∧ ∀ x ∈ l, mn ≤ x := by
  refine ⟨List.min?_mem (fun a b => min_choice a b) h, ?_⟩
  exact ((List.le_min?_iff (fun a b c => le_min_iff) h).mp le_rfl)

theorem nat_max_exists {l : List Nat} (h : l ≠ []) :
    ∃ mx, l.max? = some mx := by
  cases l with
  | nil => exact absurd rfl h
  | cons a t => exact ⟨t.foldl max a, rfl⟩

theorem nat_min_exists {l : List Nat} (h : l ≠ []) :
    ∃ mn, l.min? = some mn := by
  cases l with
  | nil => exact absurd rfl h
  | cons a t => exact ⟨t.foldl min a, rfl⟩

theorem length_adjacency_matrix {α : Type} [DecidableEq α]
    (nodes : List α) (c : α → List α) :
    (adjacency_matrix nodes c).length = nodes.length := by
  simp [adjacency_matrix]

theorem length_connectionsOf (m : List (List Nat)) :
    (connectionsOf m).length = m.length := by
  simp [connectionsOf]

theorem length_distancesOf (m : List (List Nat)) :
    (distancesOf m).length = m.length := by
  simp [distancesOf]

theorem connectionsOf_getD_eq (m : List (List Nat)) {a : Nat}
    (ha : a < m.length) :
    (connectionsOf m).getD a 0 = (m.get ⟨a, ha⟩).sum := by
  rw [connectionsOf, List.getD_eq_get?, List.get?_map, List.get?_eq_get ha]
  rfl

theorem matEntry_eq_row_get (m : List (List Nat)) {a : Nat} (b : Nat)
    (ha : a < m.length) :
    matEntry m a b = (m.get ⟨a, ha⟩).get? b := by
  rw [matEntry, List.get?_eq_get ha]
  rfl

theorem matEntry_isSome (m : List (List Nat))
    (hsq : ∀ row ∈ m, row.length = m.length) {a b : Nat}
    (ha : a < m.length) (hb : b < m.length) :
    ∃ v, matEntry m a b = some v := by
  rw [matEntry_eq_row_get m b ha]
  have hrow : (m.get ⟨a, ha⟩).length = m.length := hsq _ (List.get_mem m a ha)
  have hb' : b < (m.get ⟨a, ha⟩).length := by rw [hrow]; exact hb
  exact ⟨_, List.get?_eq_get hb'⟩

theorem sum_le_length {l : List Nat} (h : ∀ x ∈ l, x ≤ 1) :
    l.sum ≤ l.length := by
  induction l with
  | nil => simp
  | cons x t ih =>
      have hx : x ≤ 1 := h x (List.mem_cons_self x t)
      have ht : t.sum ≤ t.length := ih (fun y hy => h y (List.mem_cons_of_mem x hy))
      simp only [List.sum_cons, List.length_cons]
      omega

theorem sum_lt_length_of_zero {l : List Nat} (h : ∀ x ∈ l, x ≤ 1)
    {i : Nat} (hi : i < l.length) (hz : l.getD i 0 = 0) :
    l.sum < l.length := by
  induction l generalizing i with
  | nil => simp at hi
  | cons x t ih =>
      cases i with
      | zero =>
          have hx : x = 0 := hz
          have ht : t.sum ≤ t.length :=
            sum_le_length (fun y hy => h y (List.mem_cons_of_mem x hy))
          simp only [List.sum_cons, List.length_cons, hx]
          omega
      | succ i' =>
          have hi' : i' < t.length := by simpa using hi
          have hz' : t.getD i' 0 = 0 := hz
          have ht : t.sum < t.length :=
            ih (fun y hy => h y (List.mem_cons_of_mem x hy)) hi' hz'
          have hx : x ≤ 1 := h x (List.mem_cons_self x t)
          simp only [List.sum_cons, List.length_cons]
          omega

theorem sum_add_two_le_of_two_zeros {l : List Nat} (h : ∀ x ∈ l, x ≤ 1)
    {i j : Nat} (hne : i ≠ j) (hi : i < l.length) (hj : j < l.length)
    (hzi : l.getD i 0 = 0) (hzj : l.getD j 0 = 0) :
    l.sum + 2 ≤ l.length := by
  induction l generalizing i j with
  | nil => simp at hi
  | cons x t ih =>
      have htail : ∀ x ∈ t, x ≤ 1 := fun y hy => h y (List.mem_cons_of_mem x hy)
      cases i with
      | zero =>
          cases j with
          | zero => exact absurd rfl hne
          | succ j' =>
              have hx : x = 0 := hzi
              have hj' : j' < t.length := by simpa using hj
              have ht : t.sum < t.length :=
                sum_lt_length_of_zero htail hj' hzj
              simp only [List.sum_cons, List.length_cons, hx]
              omega
      | succ i' =>
          cases j with
          | zero =>
              have hx : x = 0 := hzj
              have hi' : i' < t.length := by simpa using hi
              have ht : t.sum < t.length :=
                sum_lt_length_of_zero htail hi' hzi
              simp only [List.sum_cons, List.length_cons, hx]
              omega
          | succ j' =>
              have hi' : i' < t.length := by simpa using hi
              have hj' : j' < t.length := by simpa using hj
              have hne' : i' ≠ j' := by omega
              have ht : t.sum + 2 ≤ t.length := ih htail hne' hi' hj' hzi hzj
              have hx : x ≤ 1 := h x (List.mem_cons_self x t)
              simp only [List.sum_cons, List.length_cons]
              omega

theorem getD_eq_get {l : List Nat} {i : Nat} (hi : i < l.length) :
    l.getD i 0 = l.get ⟨i, hi⟩ := by
  rw [List.getD_eq_get?, List.get?_eq_get hi]
  rfl

theorem getD_mem {l : List Nat} {i : Nat} (hi : i < l.length) :
    l.getD i 0 ∈ l := by
  rw [getD_eq_get hi]
  exact List.get_mem _ _ _

theorem matEntry_adjacency {α : Type} [DecidableEq α] (nodes : List α)
    (c : α → List α) {i j : Nat} (hi : i < nodes.length)
    (hj : j < nodes.length) :
    matEntry (adjacency_matrix nodes c) i j =
      some (if nodes.get ⟨j, hj⟩ ∈ c (nodes.get ⟨i, hi⟩) then 1 else 0) := by
  rw [matEntry, adjacency_matrix, List.get?_map, List.get?_eq_get hi,
    Option.map_some', Option.some_bind, List.get?_map, List.get?_eq_get hj,
    Option.map_some']

/- ### Claim theorems -/

/-- C1: whenever the most-connected candidate set computed from a snapshot is
the singleton `[u]`, the pipeline resolves node `u` as the anchor, regardless
of the rest of the topology. -/
theorem singleton_candidate_is_anchor {α : Type} [DecidableEq α]
    (nodes : List α) (connectionsTo : α → List α) (u : Nat)
    (h : most_connected_nodes (adjacency_matrix nodes connectionsTo)
      = some [u]) :
    ∃ nd, nodes.get? u = some nd ∧
      RI_SDN_anchor nodes connectionsTo = some nd := by
  have hu : u < nodes.length := by
    rw [most_connected_nodes] at h
    cases hmax : (connectionsOf (adjacency_matrix nodes connectionsTo)).max?
      with
    | none => rw [hmax] at h; simp at h
    | some mx =>
        rw [hmax] at h
        simp only [Option.some.injEq] at h
        have hmem : u ∈ (List.range
            (adjacency_matrix nodes connectionsTo).length).filter
            (fun i =>
              (connectionsOf (adjacency_matrix nodes connectionsTo)).getD i 0
                = mx) := by
          rw [h]; exact List.mem_cons_self u []
        have := (List.mem_filter.mp hmem).1
        rw [List.mem_range, length_adjacency_matrix] at this
        exact this
  refine ⟨nodes.get ⟨u, hu⟩, List.get?_eq_get hu, ?_⟩
  rw [RI_SDN_anchor]
  simp only [h, determine_anchor, List.length_singleton, if_pos rfl,
    List.head?_cons, Option.some_bind]
  exact List.get?_eq_get hu

/-- C1 witness: on the star graph (scenario A) the candidate set is the
singleton [0] and the pipeline resolves node 0. -/
theorem singleton_candidate_is_anchor_witness :
    most_connected_nodes (adjacency_matrix [0, 1, 2, 3] starConn)
      = some [0] ∧
    ∃ nd, ([0, 1, 2, 3] : List Nat).get? 0 = some nd ∧
      RI_SDN_anchor [0, 1, 2, 3] starConn = some nd :=
  ⟨by decide,
    singleton_candidate_is_anchor [0, 1, 2, 3] starConn 0 (by decide)⟩

/-- C3 (code evaluation at the failing input): for the 5-node snapshot `M5`
(edges 0-1, 0-2, 0-3, 1-2, 1-4) the candidate set is the clique [0, 1], the
minimum-distance set SDC is [3, 4], yet `determine_anchor` returns node 0 —
which is not even a member of SDC — because the final stage indexes `nodes`
with a position inside `sdc` instead of the corresponding SDC member; the
claimed behaviour (first SDC member attaining the maximal secondary score)
would return node 3. -/
theorem secondary_fallback_positional_bug :
    most_connected_nodes M5 = some [0, 1] ∧
    (distancesOf M5).min? = some 1 ∧
    sdcOf M5 1 = [3, 4] ∧
    determine_anchor [0, 1, 2, 3, 4] [0, 1] M5 = some 0 ∧
    (0 : Nat) ∉ sdcOf M5 1 := by
  decide

/-- C7: if the connectivity probe is symmetric and irreflexive on the
snapshot's nodes (connectivity is undirected, no self-links), then the matrix
built by `adjacency_matrix` is symmetric with zero diagonal. -/
theorem adjacency_symmetric_zero_diag {α : Type} [DecidableEq α]
    (nodes : List α) (connectionsTo : α → List α)
    (hsym : ∀ a ∈ nodes, ∀ b ∈ nodes,
      (a ∈ connectionsTo b ↔ b ∈ connectionsTo a))
    (hirr : ∀ a ∈ nodes, a ∉ connectionsTo a) :
    (∀ i < nodes.length, ∀ j < nodes.length,
      matEntry (adjacency_matrix nodes connectionsTo) i j =
        matEntry (adjacency_matrix nodes connectionsTo) j i) ∧
    (∀ i < nodes.length,
      matEntry (adjacency_matrix nodes connectionsTo) i i = some 0) := by
  constructor
  · intro i hi j hj
    rw [matEntry_adjacency nodes _ hi hj, matEntry_adjacency nodes _ hj hi]
    have hiff := hsym (nodes.get ⟨j, hj⟩) (List.get_mem _ _ _)
      (nodes.get ⟨i, hi⟩) (List.get_mem _ _ _)
    by_cases hmem : nodes.get ⟨j, hj⟩ ∈ connectionsTo (nodes.get ⟨i, hi⟩)
    · rw [if_pos hmem, if_pos (hiff.mp hmem)]
    · rw [if_neg hmem, if_neg (fun hc => hmem (hiff.mpr hc))]
  · intro i hi
    rw [matEntry_adjacency nodes _ hi hi,
      if_neg (hirr _ (List.get_mem _ _ _))]

/-- C7 witness: the two-node snapshot [0, 1] with the path-graph probe
satisfies the undirectedness hypotheses, and its matrix is symmetric with
zero diagonal. -/
theorem adjacency_symmetric_zero_diag_witness :
    (∀ a ∈ [0, 1], ∀ b ∈ [0, 1], (a ∈ pathConn b ↔ b ∈ pathConn a)) ∧
    ((∀ i < ([0, 1] : List Nat).length, ∀ j < ([0, 1] : List Nat).length,
      matEntry (adjacency_matrix [0, 1] pathConn) i j =
        matEntry (adjacency_matrix [0, 1] pathConn) j i) ∧
    (∀ i < ([0, 1] : List Nat).length,
      matEntry (adjacency_matrix [0, 1] pathConn) i i = some 0)) :=
  ⟨by decide,
    adjacency_symmetric_zero_diag [0, 1] pathConn (by decide) (by decide)⟩

/-- C8 counterexample: on an empty node list the builder does NOT fail — it
returns the (empty) 0 x 0 matrix, exactly as `np.zeros((0, 0))` does, so the
claimed `InvalidTopology` failure does not occur at the build step. -/
theorem adjacency_empty_returns_matrix :
    adjacency_matrix ([] : List Nat) (fun _ => []) = ([] : List (List Nat))
    := rfl

/-- C8 amended: with zero nodes the build step succeeds and returns the empty
matrix; the pipeline only fails afterwards, in `most_connected_nodes`, where
`np.max` over the empty degree vector raises (modelled by `none`). -/
theorem adjacency_empty_amended (c : Nat → List Nat) :
    adjacency_matrix ([] : List Nat) c = [] ∧
    most_connected_nodes (adjacency_matrix ([] : List Nat) c) = none :=
  ⟨rfl, rfl⟩

/-- C8 amended, applied at a concrete probe. -/
theorem adjacency_empty_amended_witness :
    adjacency_matrix ([] : List Nat) (fun _ => []) = [] ∧
    most_connected_nodes (adjacency_matrix ([] : List Nat) (fun _ => []))
      = none :=
  adjacency_empty_amended (fun _ => [])

/-- C9 counterexample: with an empty candidate set and the 2 x 2 zero matrix,
`determine_anchor` does not fail — it falls through the (empty) pair scan into
the global-degree stages and returns an anchor, node 10. -/
theorem anchor_empty_candidates_counterexample :
    determine_anchor [10, 20] [] [[0, 0], [0, 0]] = some 10 := rfl

/-- C9 amended: `determine_anchor` performs no defensive validation: an empty
candidate set with a non-empty matrix still yields an anchor, and so does a
node list whose length disagrees with the matrix dimension; a failure
(modelled by `none`) arises only when an underlying operation raises, e.g.
`np.min` over the distance vector of the empty matrix. -/
theorem anchor_no_defensive_checks :
    determine_anchor [10, 20] [] [[0, 0], [0, 0]] = some 10 ∧
    determine_anchor [10, 20, 30] [0, 1] [[0, 0], [0, 0]] = some 10 ∧
    determine_anchor ([] : List Nat) [] [] = none :=
  ⟨rfl, rfl, rfl⟩

theorem innerScan_found (m : List (List Nat)) (i : Nat) :
    ∀ l : List Nat,
    (∀ b ∈ l, i ≠ b → ∃ v, matEntry m i b = some v) →
    (∃ j ∈ l, i ≠ j ∧ matEntry m i j = some 0) →
    innerScan m i l = some (some i) := by
  intro l
  induction l with
  | nil => rintro _ ⟨j, hj, _⟩; exact absurd hj (List.not_mem_nil j)
  | cons b t ih =>
      rintro hin ⟨j, hj, hij, hz⟩
      rw [innerScan]
      by_cases hib : i = b
      · rw [if_pos hib]
        apply ih (fun b' hb' => hin b' (List.mem_cons_of_mem b hb'))
        rcases List.mem_cons.mp hj with hjb | hjt
        · exact absurd (hib.trans hjb.symm) hij
        · exact ⟨j, hjt, hij, hz⟩
      · rw [if_neg hib]
        obtain ⟨v, hv⟩ := hin b (List.mem_cons_self b t) hib
        rw [hv]
        show (if v = 0 then some (some i) else innerScan m i t)
          = some (some i)
        by_cases hv0 : v = 0
        · rw [if_pos hv0]
        · rw [if_neg hv0]
          apply ih (fun b' hb' => hin b' (List.mem_cons_of_mem b hb'))
          rcases List.mem_cons.mp hj with hjb | hjt
          · exact absurd (Option.some.inj (hv.symm.trans (hjb ▸ hz))) hv0
          · exact ⟨j, hjt, hij, hz⟩

theorem innerScan_not_found (m : List (List Nat)) (i : Nat) :
    ∀ l : List Nat,
    (∀ b ∈ l, i ≠ b → ∃ v, matEntry m i b = some v) →
    (∀ j ∈ l, i ≠ j → matEntry m i j ≠ some 0) →
    innerScan m i l = some none := by
  intro l
  induction l with
  | nil => intro _ _; rfl
  | cons b t ih =>
      intro hin hno
      rw [innerScan]
      by_cases hib : i = b
      · rw [if_pos hib]
        exact ih (fun b' hb' => hin b' (List.mem_cons_of_mem b hb'))
          (fun j hj => hno j (List.mem_cons_of_mem b hj))
      · rw [if_neg hib]
        obtain ⟨v, hv⟩ := hin b (List.mem_cons_self b t) hib
        rw [hv]
        show (if v = 0 then some (some i) else innerScan m i t) = some none
        have hv0 : ¬ v = 0 := by
          intro h0
          exact hno b (List.mem_cons_self b t) hib (h0 ▸ hv)
        rw [if_neg hv0]
        exact ih (fun b' hb' => hin b' (List.mem_cons_of_mem b hb'))
          (fun j hj => hno j (List.mem_cons_of_mem b hj))

theorem outerScan_first (m : List (List Nat)) (smc : List Nat) (i : Nat)
    (hin : ∀ a ∈ smc, ∀ b ∈ smc, a ≠ b → ∃ v, matEntry m a b = some v)
    (hwi : hasDisconnection m smc i) :
    ∀ l : List Nat, (∀ a ∈ l, a ∈ smc) →
    List.Pairwise (· < ·) l →
    i ∈ l →
    (∀ a ∈ l, hasDisconnection m smc a → i ≤ a) →
    outerScan m smc l = some (some i) := by
  intro l
  induction l with
  | nil => intro _ _ hi _; exact absurd hi (List.not_mem_nil i)
  | cons a t ih =>
      intro hsub hpw hi hmin
      rw [outerScan]
      by_cases hda : hasDisconnection m smc a
      · have hia : i = a := by
          rcases List.mem_cons.mp hi with h | h
          · exact h
          · have hlt : a < i := (List.pairwise_cons.mp hpw).1 i h
            have hle : i ≤ a := hmin a (List.mem_cons_self a t) hda
            omega
        subst hia
        obtain ⟨j, hj, hij, hz⟩ := hda
        rw [innerScan_found m i smc
          (hin i (hsub i (List.mem_cons_self i t))) ⟨j, hj, hij, hz⟩]
      · have hifound : innerScan m a smc = some none := by
          apply innerScan_not_found m a smc
            (hin a (hsub a (List.mem_cons_self a t)))
          intro j hj haj hzz
          exact hda ⟨j, hj, haj, hzz⟩
        rw [hifound]
        show outerScan m smc t = some (some i)
        have hit : i ∈ t := by
          rcases List.mem_cons.mp hi with h | h
          · exact absurd (h ▸ hwi) hda
          · exact h
        exact ih (fun a' ha' => hsub a' (List.mem_cons_of_mem a ha'))
          (List.pairwise_cons.mp hpw).2 hit
          (fun a' ha' hd => hmin a' (List.mem_cons_of_mem a ha') hd)

/-- C2: when the candidate set (listed in ascending order) has at least two
members and is not a clique, the anchor is `nodes[i]` for the outer index `i`
of the first ordered pair (i, j), i ≠ j, in the ascending double scan with
`matrix[i][j] = 0`. -/
theorem first_disconnected_pair_is_anchor {α : Type} [DecidableEq α]
    (nodes : List α) (smc : List Nat) (m : List (List Nat)) (i j : Nat)
    (hsq : ∀ row ∈ m, row.length = m.length)
    (hbound : ∀ k ∈ smc, k < m.length)
    (hlen2 : 2 ≤ smc.length)
    (hsorted : List.Sorted (· < ·) smc)
    (hnodes : m.length ≤ nodes.length)
    (hi : i ∈ smc) (hj : j ∈ smc) (hij : i ≠ j)
    (hzero : matEntry m i j = some 0)
    (hfirst : ∀ a ∈ smc, ∀ b ∈ smc, a ≠ b → matEntry m a b = some 0 →
      i < a ∨ (i = a ∧ j ≤ b)) :
    ∃ nd, nodes.get? i = some nd ∧ determine_anchor nodes smc m = some nd
    := by
  have hin : ∀ a ∈ smc, ∀ b ∈ smc, a ≠ b → ∃ v, matEntry m a b = some v :=
    fun a ha b hb hab => matEntry_isSome m hsq (hbound a ha) (hbound b hb)
  have hwi : hasDisconnection m smc i := ⟨j, hj, hij, hzero⟩
  have hmin : ∀ a ∈ smc, hasDisconnection m smc a → i ≤ a := by
    rintro a ha ⟨b, hb, hab, hzab⟩
    rcases hfirst a ha b hb hab hzab with h | ⟨h, _⟩
    · omega
    · omega
  have houter : outerScan m smc smc = some (some i) :=
    outerScan_first m smc i hin hwi smc (fun a ha => ha) hsorted hi hmin
  have hiN : i < nodes.length := lt_of_lt_of_le (hbound i hi) hnodes
  refine ⟨nodes.get ⟨i, hiN⟩, List.get?_eq_get hiN, ?_⟩
  rw [determine_anchor, if_neg (by omega : ¬ smc.length = 1), houter]
  exact List.get?_eq_get hiN

/-- C2 witness: scenario B — 4 nodes, edges {0-1, 2-3}, candidate set
[0, 1, 2, 3]; the first disconnected ordered pair is (0, 2) and the anchor is
node 0. -/
theorem first_disconnected_pair_witness :
    (2 ≤ ([0, 1, 2, 3] : List Nat).length) ∧
    matEntry MB 0 2 = some 0 ∧
    ∃ nd, ([10, 11, 12, 13] : List Nat).get? 0 = some nd ∧
      determine_anchor [10, 11, 12, 13] [0, 1, 2, 3] MB = some nd :=
  ⟨by decide, by decide,
    first_disconnected_pair_is_anchor [10, 11, 12, 13] [0, 1, 2, 3] MB 0 2
      (by decide) (by decide) (by decide) (by decide) (by decide)
      (by decide) (by decide) (by decide) (by decide) (by decide)⟩

/-- C4: the "distance" vector recomputed in the fallback stage equals, entry
for entry, the degree vector of candidate selection, and consequently the
minimum-distance set SDC is exactly the set of globally minimum-degree node
indices. -/
theorem distances_eq_degrees_and_sdc_is_min_set (m : List (List Nat))
    (hne : m ≠ []) :
    distancesOf m = connectionsOf m ∧
    ∃ mind, (distancesOf m).min? = some mind ∧
      ∀ k, k ∈ sdcOf m mind ↔
        (k < m.length ∧ ∀ l < m.length,
          (connectionsOf m).getD k 0 ≤ (connectionsOf m).getD l 0) := by
  refine ⟨rfl, ?_⟩
  have hlen0 : m.length ≠ 0 := fun hc => hne (List.length_eq_zero.mp hc)
  have hdne : distancesOf m ≠ [] := by
    intro hc
    apply hlen0
    rw [← length_distancesOf, hc]
    rfl
  obtain ⟨mind, hmind⟩ := nat_min_exists hdne
  obtain ⟨hmem, hlb⟩ := nat_min_of_eq_some hmind
  refine ⟨mind, hmind, ?_⟩
  intro k
  rw [sdcOf, List.mem_filter, List.mem_range]
  constructor
  · rintro ⟨hk, heq⟩
    rw [decide_eq_true_eq] at heq
    refine ⟨hk, fun l hl => ?_⟩
    have hl' : l < (distancesOf m).length := by
      rw [length_distancesOf]; exact hl
    have hgoal : mind ≤ (distancesOf m).getD l 0 :=
      hlb _ (getD_mem hl')
    show (distancesOf m).getD k 0 ≤ (distancesOf m).getD l 0
    rw [heq]
    exact hgoal
  · rintro ⟨hk, hall⟩
    refine ⟨hk, ?_⟩
    rw [decide_eq_true_eq]
    obtain ⟨⟨l0, hl0⟩, hg⟩ := List.mem_iff_get.mp hmem
    have hl0' : l0 < m.length := by rw [← length_distancesOf]; exact hl0
    have hup : (distancesOf m).getD k 0 ≤ mind := by
      have h2 := hall l0 hl0'
      have h3 : (connectionsOf m).getD l0 0 = mind := by
        show (distancesOf m).getD l0 0 = mind
        rw [getD_eq_get hl0, hg]
      rw [h3] at h2
      exact h2
    have hk' : k < (distancesOf m).length := by
      rw [length_distancesOf]; exact hk
    exact le_antisymm hup (hlb _ (getD_mem hk'))

/-- C4 witness: on the 2-node complete graph matrix the fallback distance
vector coincides with the degree vector and SDC is the global minimum-degree
set. -/
theorem distances_eq_degrees_witness :
    ([[0, 1], [1, 0]] : List (List Nat)) ≠ [] ∧
    (distancesOf [[0, 1], [1, 0]] = connectionsOf [[0, 1], [1, 0]] ∧
    ∃ mind, (distancesOf [[0, 1], [1, 0]]).min? = some mind ∧
      ∀ k, k ∈ sdcOf [[0, 1], [1, 0]] mind ↔
        (k < ([[0, 1], [1, 0]] : List (List Nat)).length ∧
          ∀ l < ([[0, 1], [1, 0]] : List (List Nat)).length,
          (connectionsOf [[0, 1], [1, 0]]).getD k 0 ≤
            (connectionsOf [[0, 1], [1, 0]]).getD l 0)) :=
  ⟨by decide, distances_eq_degrees_and_sdc_is_min_set [[0, 1], [1, 0]]
    (by decide)⟩

/-- C5: for a snapshot (symmetric 0/1 matrix, zero diagonal) whose candidate
set forms a clique and in which all nodes have pairwise distinct degrees, the
anchor is the unique node of globally minimum degree.  (The hypotheses force
N = 1: in a simple undirected graph on N ≥ 2 vertices two vertices always
share a degree.) -/
theorem clique_distinct_degrees_min_anchor {α : Type} [DecidableEq α]
    (nodes : List α) (m : List (List Nat)) (smc : List Nat) (k : Nat)
    (hsq : ∀ row ∈ m, row.length = m.length)
    (h01 : ∀ row ∈ m, ∀ x ∈ row, x ≤ 1)
    (hsym : ∀ a < m.length, ∀ b < m.length, matEntry m a b = matEntry m b a)
    (hdiag : ∀ a < m.length, matEntry m a a = some 0)
    (hnodes : nodes.length = m.length)
    (hsmc : most_connected_nodes m = some smc)
    (hclique : ∀ a ∈ smc, ∀ b ∈ smc, a ≠ b → matEntry m a b = some 1)
    (hdistinct : ∀ a < m.length, ∀ b < m.length, a ≠ b →
      (connectionsOf m).getD a 0 ≠ (connectionsOf m).getD b 0)
    (hk : k < m.length)
    (hmin : ∀ l < m.length,
      (connectionsOf m).getD k 0 ≤ (connectionsOf m).getD l 0) :
    ∃ nd, nodes.get? k = some nd ∧ determine_anchor nodes smc m = some nd
    := by
  have hNle : m.length ≤ 1 := by
    by_contra hgt
    push_neg at hgt
    have hdeglt : ∀ a (ha : a < m.length),
        (connectionsOf m).getD a 0 < m.length := by
      intro a ha
      rw [connectionsOf_getD_eq m ha]
      have hrow := List.get_mem m a ha
      have hlen : (m.get ⟨a, ha⟩).length = m.length := hsq _ hrow
      have hz : (m.get ⟨a, ha⟩).getD a 0 = 0 := by
        have hd := hdiag a ha
        rw [matEntry_eq_row_get m a ha] at hd
        rw [List.getD_eq_get?, hd]
        rfl
      have := sum_lt_length_of_zero (h01 _ hrow)
        (by rw [hlen]; exact ha) hz
      rw [hlen] at this
      exact this
    have hinj : Function.Injective
        (fun a : Fin m.length =>
          (⟨(connectionsOf m).getD a.val 0, hdeglt a.val a.isLt⟩ :
            Fin m.length)) := by
      intro a b hab
      by_contra hne
      exact hdistinct a.val a.isLt b.val b.isLt
        (fun hv => hne (Fin.ext hv)) (congrArg Fin.val hab)
    have hsurj := Finite.injective_iff_surjective.mp hinj
    obtain ⟨a, hafull⟩ := hsurj ⟨m.length - 1, by omega⟩
    obtain ⟨b, hbzero⟩ := hsurj ⟨0, by omega⟩
    have hdega : (connectionsOf m).getD a.val 0 = m.length - 1 :=
      congrArg Fin.val hafull
    have hdegb : (connectionsOf m).getD b.val 0 = 0 :=
      congrArg Fin.val hbzero
    have hab : a.val ≠ b.val := by
      intro h
      rw [h, hdegb] at hdega
      omega
    have hrowb := List.get_mem m b.val b.isLt
    have hsumb : (m.get ⟨b.val, b.isLt⟩).sum = 0 := by
      rw [← connectionsOf_getD_eq m b.isLt]
      exact hdegb
    have hallzero : ∀ x ∈ m.get ⟨b.val, b.isLt⟩, x = 0 :=
      List.sum_eq_zero_iff.mp hsumb
    have hba : matEntry m b.val a.val = some 0 := by
      rw [matEntry_eq_row_get m a.val b.isLt]
      have hlenb : (m.get ⟨b.val, b.isLt⟩).length = m.length := hsq _ hrowb
      have ha' : a.val < (m.get ⟨b.val, b.isLt⟩).length := by
        rw [hlenb]; exact a.isLt
      rw [List.get?_eq_get ha', hallzero _ (List.get_mem _ _ ha')]
    have hab0 : matEntry m a.val b.val = some 0 := by
      rw [hsym a.val a.isLt b.val b.isLt]
      exact hba
    have hrowa := List.get_mem m a.val a.isLt
    have hlena : (m.get ⟨a.val, a.isLt⟩).length = m.length := hsq _ hrowa
    have hzdiag : (m.get ⟨a.val, a.isLt⟩).getD a.val 0 = 0 := by
      have hd := hdiag a.val a.isLt
      rw [matEntry_eq_row_get m a.val a.isLt] at hd
      rw [List.getD_eq_get?, hd]
      rfl
    have hzb : (m.get ⟨a.val, a.isLt⟩).getD b.val 0 = 0 := by
      have hd := hab0
      rw [matEntry_eq_row_get m b.val a.isLt] at hd
      rw [List.getD_eq_get?, hd]
      rfl
    have hsum2 := sum_add_two_le_of_two_zeros (h01 _ hrowa) hab
      (by rw [hlena]; exact a.isLt) (by rw [hlena]; exact b.isLt)
      hzdiag hzb
    rw [hlena] at hsum2
    have hsuma : (m.get ⟨a.val, a.isLt⟩).sum = m.length - 1 := by
      rw [← connectionsOf_getD_eq m a.isLt]
      exact hdega
    omega
  have hN1 : m.length = 1 := by omega
  have hk0 : k = 0 := by omega
  subst hk0
  obtain ⟨row, hrow⟩ := List.length_eq_one.mp hN1
  have hrowmem : row ∈ m := by
    rw [hrow]
    exact List.mem_cons_self row []
  have hrowlen : row.length = 1 := by rw [hsq row hrowmem, hN1]
  obtain ⟨x, hx⟩ := List.length_eq_one.mp hrowlen
  have hx0 : x = 0 := by
    have hd := hdiag 0 (by omega)
    rw [hrow, hx] at hd
    have hd' : some x = some 0 := hd
    exact Option.some.inj hd'
  have hm : m = [[0]] := by rw [hrow, hx, hx0]
  subst hm
  have hsmc0 : smc = [0] := by
    have h0 : most_connected_nodes [[0]] = some [0] := rfl
    rw [h0] at hsmc
    exact (Option.some.inj hsmc).symm
  subst hsmc0
  have hn0 : 0 < nodes.length := by rw [hnodes]; exact Nat.zero_lt_one
  refine ⟨nodes.get ⟨0, hn0⟩, List.get?_eq_get hn0, ?_⟩
  show nodes.get? 0 = some (nodes.get ⟨0, hn0⟩)
  exact List.get?_eq_get hn0

/-- C5 witness: the one-node snapshot (nodes [7], matrix [[0]], candidate set
[0]) satisfies all hypotheses, and the anchor is node 7 at index 0, the
unique minimum-degree index. -/
theorem clique_distinct_degrees_min_anchor_witness :
    (∀ a ∈ ([0] : List Nat), ∀ b ∈ ([0] : List Nat), a ≠ b →
      matEntry [[0]] a b = some 1) ∧
    ∃ nd, ([7] : List Nat).get? 0 = some nd ∧
      determine_anchor [7] [0] [[0]] = some nd :=
  ⟨by decide,
    clique_distinct_degrees_min_anchor [7] [[0]] [0] 0
      (by decide) (by decide) (by decide) (by decide) (by decide)
      (by decide) (by decide) (by decide) (by decide) (by decide)⟩

/-- C6: for every matrix with at least one row, `most_connected_nodes`
succeeds and returns a non-empty, strictly ascending list containing exactly
the indices of maximum degree. -/
theorem most_connected_nodes_spec (m : List (List Nat))
    (h1 : 1 ≤ m.length) :
    ∃ smc, most_connected_nodes m = some smc ∧ smc ≠ [] ∧
      List.Sorted (· < ·) smc ∧
      ∀ i, i ∈ smc ↔ (i < m.length ∧ ∀ l < m.length,
        (connectionsOf m).getD l 0 ≤ (connectionsOf m).getD i 0) := by
  have hcne : connectionsOf m ≠ [] := by
    intro hc
    have hlen : m.length = 0 := by rw [← length_connectionsOf, hc]; rfl
    omega
  obtain ⟨mx, hmx⟩ := nat_max_exists hcne
  obtain ⟨hmem, hub⟩ := nat_max_of_eq_some hmx
  refine ⟨(List.range m.length).filter
      (fun i => (connectionsOf m).getD i 0 = mx), ?_, ?_, ?_, ?_⟩
  · rw [most_connected_nodes, hmx]
  · obtain ⟨⟨i0, hi0⟩, hg⟩ := List.mem_iff_get.mp hmem
    have hi0' : i0 < m.length := by rw [← length_connectionsOf]; exact hi0
    intro hempty
    have hmem0 : i0 ∈ (List.range m.length).filter
        (fun i => (connectionsOf m).getD i 0 = mx) := by
      rw [List.mem_filter, List.mem_range, decide_eq_true_eq]
      exact ⟨hi0', by rw [getD_eq_get hi0, hg]⟩
    rw [hempty] at hmem0
    exact (List.not_mem_nil i0) hmem0
  · exact (List.pairwise_lt_range m.length).filter _
  · intro i
    rw [List.mem_filter, List.mem_range, decide_eq_true_eq]
    constructor
    · rintro ⟨hi, heq⟩
      refine ⟨hi, fun l hl => ?_⟩
      have hl' : l < (connectionsOf m).length := by
        rw [length_connectionsOf]; exact hl
      have := hub _ (getD_mem hl')
      rw [heq]
      exact this
    · rintro ⟨hi, hall⟩
      refine ⟨hi, ?_⟩
      obtain ⟨⟨l0, hl0⟩, hg⟩ := List.mem_iff_get.mp hmem
      have hl0' : l0 < m.length := by rw [← length_connectionsOf]; exact hl0
      have hlow : mx ≤ (connectionsOf m).getD i 0 := by
        have := hall l0 hl0'
        rw [getD_eq_get hl0, hg] at this
        exact this
      have hi' : i < (connectionsOf m).length := by
        rw [length_connectionsOf]; exact hi
      exact le_antisymm (hub _ (getD_mem hi')) hlow

/-- C6 witness: the one-row matrix [[0]] yields the candidate set [0]. -/
theorem most_connected_nodes_spec_witness :
    1 ≤ ([[0]] : List (List Nat)).length ∧
    ∃ smc, most_connected_nodes [[0]] = some smc ∧ smc ≠ [] ∧
      List.Sorted (· < ·) smc ∧
      ∀ i, i ∈ smc ↔ (i < ([[0]] : List (List Nat)).length ∧
        ∀ l < ([[0]] : List (List Nat)).length,
        (connectionsOf [[0]]).getD l 0 ≤ (connectionsOf [[0]]).getD i 0) :=
  ⟨by decide, most_connected_nodes_spec [[0]] (by decide)⟩

/-- C10: a snapshot whose anchor lies outside the most-connected set: on the
path graph 0-1-2-3 the candidate set is [1, 2] (a clique), and the fallback
stages return the leaf node 0, which is not a candidate. -/
theorem anchor_outside_candidate_set :
    most_connected_nodes (adjacency_matrix [0, 1, 2, 3] pathConn)
      = some [1, 2] ∧
    RI_SDN_anchor [0, 1, 2, 3] pathConn = some 0 ∧
    (0 : Nat) ∉ ([1, 2] : List Nat) := by
  decide

end Enfin
